import Mathlib

/-! Verification development for the restaurant contact scraper (src/main.py).
Pure Python text functions are shallowly embedded as Lean functions on
`List Char` and `String`; regular expressions are embedded by their matching
semantics (full anchored match for `re.match` with a final anchor, scan with
leftmost greedy matches for `re.findall`, single-substitution analysis for the
`re.sub` patterns that can match at most once).  File contents as seen through
`json.load` are modelled as `Option (Except String Json)` (absent file, failed
parse, parsed value); network responses are explicit parameters.  Character
case mapping is modelled on ASCII, which matches the ASCII character classes
of all the regexes in the source. -/

/-! ## Character classes (ASCII, as in the source regexes) -/

/-- The class [A-Z]. -/
def isUpperAZ (c : Char) : Bool := 65 ≤ c.toNat && c.toNat ≤ 90

/-- The class [a-z]. -/
def isLowerAZ (c : Char) : Bool := 97 ≤ c.toNat && c.toNat ≤ 122

/-- The class [0-9], Python regex \d on ASCII input. -/
def isDigitA (c : Char) : Bool := 48 ≤ c.toNat && c.toNat ≤ 57

/-- The class [a-zA-Z]. -/
def isAlphaA (c : Char) : Bool := isUpperAZ c || isLowerAZ c

/-- Python whitespace (regex \s and str.strip): space, \t \n \v \f \r,
the separator controls 28-31, NEL 133, NBSP 160, and the common Unicode
space code points. -/
def isPyWs (c : Char) : Bool :=
  c.toNat = 32 || (9 ≤ c.toNat && c.toNat ≤ 13) || (28 ≤ c.toNat && c.toNat ≤ 31) ||
  c.toNat = 133 || c.toNat = 160 || c.toNat = 5760 ||
  (8192 ≤ c.toNat && c.toNat ≤ 8202) || c.toNat = 8232 || c.toNat = 8233 ||
  c.toNat = 8239 || c.toNat = 8287 || c.toNat = 12288

/-- Python str.lower restricted to ASCII (all regex classes in the source are
ASCII, and the strings the source lowercases have been reduced to ASCII or are
compared against ASCII constants). -/
def pyLower (c : Char) : Char :=
  if isUpperAZ c then Char.ofNat (c.toNat + 32) else c

/-- Python str.upper / the first step of str.capitalize, on ASCII. -/
def pyUpper (c : Char) : Char :=
  if isLowerAZ c then Char.ofNat (c.toNat - 32) else c

/-! ## Small string utilities shared by the embeddings -/

/-- Drop the leading whitespace run (the left half of Python str.strip). -/
def dropLeadWs : List Char → List Char
  | [] => []
  | c :: rest => if isPyWs c then dropLeadWs rest else c :: rest

/-- Drop the trailing whitespace run. -/
def trimEndWs : List Char → List Char
  | [] => []
  | c :: rest =>
    if trimEndWs rest = [] then (if isPyWs c then [] else [c]) else c :: trimEndWs rest

/-- Python str.strip(): remove leading and trailing whitespace. -/
def pyStrip (cs : List Char) : List Char := trimEndWs (dropLeadWs cs)

/-- Python s.split on the two-character separator of a comma and a space,
keeping empty pieces, splitting at each non-overlapping occurrence from the
left (the source always splits on that separator). -/
def splitCS : List Char → List (List Char)
  | [] => [[]]
  | [c] => [[c]]
  | c1 :: c2 :: rest =>
    if c1 = ',' ∧ c2 = ' ' then [] :: splitCS rest
    else
      match splitCS (c2 :: rest) with
      | h :: t => (c1 :: h) :: t
      | [] => [[c1]]

/-- Python join with the separator of a comma and a space. -/
def joinCS : List (List Char) → List Char
  | [] => []
  | [x] => x
  | x :: y :: xs => x ++ ',' :: ' ' :: joinCS (y :: xs)

/-- Helper of `dedupFirst`, carrying the keys already seen. -/
def dedupAux {α : Type} [DecidableEq α] (seen : List α) : List α → List α
  | [] => []
  | x :: xs => if x ∈ seen then dedupAux seen xs else x :: dedupAux (seen ++ [x]) xs

/-- Python list(dict.fromkeys(l)): remove duplicates keeping the first
occurrence of each element, preserving order. -/
def dedupFirst {α : Type} [DecidableEq α] (l : List α) : List α := dedupAux [] l

/-- Python s.startswith(p), by comparing the prefix of the character list. -/
def strStarts (s p : String) : Bool := decide (s.toList.take p.toList.length = p.toList)

/-- main.py lines 56-60: validate_url. -/
def validate_url (url : String) : Bool :=
  if url = "" ∨ url = "-" then false
  else strStarts url "http://" || strStarts url "https://"

/-! ## The strict email pattern (main.py line 53)

Pattern r of validate_email: one or more characters of [a-zA-Z0-9._%+-], the
at sign, one or more of [a-zA-Z0-9.-], a dot, two or more letters, anchored at
both ends.  `re.match` of an anchored pattern succeeds exactly when the whole
string (or, because of the dollar anchor, the string minus one final newline)
decomposes accordingly; the boolean search below ranges over all split
points, which is the denotation of the backtracking match. -/

/-- Local-part class [a-zA-Z0-9._%+-]. -/
def isL (c : Char) : Bool :=
  isAlphaA c || isDigitA c || c = '.' || c = '_' || c = '%' || c = '+' || c = '-'

/-- Domain class [a-zA-Z0-9.-]. -/
def isD (c : Char) : Bool := isAlphaA c || isDigitA c || c = '.' || c = '-'

/-- Top-level-domain class [a-zA-Z]. -/
def isT (c : Char) : Bool := isAlphaA c

/-- Anchored match of the part after the at sign: D+ then a dot then T with
length at least two. -/
def domFullMatch (ds : List Char) : Bool :=
  (List.range ds.length).any (fun k =>
    decide (1 ≤ k) && (ds.take k).all isD && decide ((ds.drop k).head? = some '.') &&
    (ds.drop (k+1)).all isT && decide (2 ≤ (ds.drop (k+1)).length))

/-- Anchored match of the whole email pattern. -/
def emailFullMatch (cs : List Char) : Bool :=
  (List.range cs.length).any (fun i =>
    decide (1 ≤ i) && (cs.take i).all isL && decide ((cs.drop i).head? = some '@') &&
    domFullMatch (cs.drop (i+1)))

/-- main.py lines 49-54: validate_email.  The sentinel is accepted by
convention; otherwise re.match of the anchored pattern, where the final dollar
also matches just before one trailing newline. -/
def validate_email (email : String) : Bool :=
  if email = "-" then true
  else
    emailFullMatch email.toList ||
      (decide (email.toList.getLast? = some '\n') && emailFullMatch email.toList.dropLast)

/-! ## re.findall of the email pattern (main.py line 103)

Leftmost scan; at each position the match is: maximal run of L (the class has
no at sign, so no shorter run can succeed), the at sign, then a greedy D+ that
backtracks from the maximal D run until a dot followed by at least two letters
is found, then the maximal letter run.  Scanning resumes after each match. -/

/-- Try domain lengths k, k-1, ..., 1 (greedy D+ backtracking): accept length j
when a dot follows position j and at least two letters follow the dot; the
letter run after the dot is taken maximally.  Returns the matched domain part
and the rest of the input. -/
def tryDom (rest : List Char) : Nat → Option (List Char × List Char)
  | 0 => none
  | k+1 =>
    match rest.drop (k+1) with
    | '.' :: t =>
      let ts := t.takeWhile isT
      if 2 ≤ ts.length then some (rest.take (k+1) ++ '.' :: ts, t.drop ts.length)
      else tryDom rest k
    | _ => tryDom rest k

/-- Attempt an email match anchored at the head of cs; on success return the
matched text and the remaining input. -/
def matchEmailAt (cs : List Char) : Option (List Char × List Char) :=
  if (cs.takeWhile isL).isEmpty then none
  else
    match cs.drop (cs.takeWhile isL).length with
    | '@' :: rest =>
      match tryDom rest (rest.takeWhile isD).length with
      | some (dm, r) => some (cs.takeWhile isL ++ '@' :: dm, r)
      | none => none
    | _ => none

/-- Scan for all matches left to right; fuel bounds the recursion and the
initial fuel (the input length) is enough because every step consumes at least
one character. -/
def findAllEmailsAux : Nat → List Char → List (List Char)
  | 0, _ => []
  | _, [] => []
  | fuel+1, c :: cs =>
    match matchEmailAt (c :: cs) with
    | some (m, r) => m :: findAllEmailsAux fuel r
    | none => findAllEmailsAux fuel cs

/-- main.py lines 102-104: extract_emails. -/
def extract_emails (text : String) : List String :=
  let ms := findAllEmailsAux text.toList.length text.toList
  if ms.isEmpty then ["-"] else ms.map String.mk

/-! ## re.findall of the phone pattern (main.py line 107)

Pattern: an optional plus, a digit, at least seven characters of digits,
whitespace and hyphens (greedy, backtracking from the maximal run), then a
digit. -/

/-- The class [\d\s-] of the middle of the phone pattern. -/
def isPhoneMid (c : Char) : Bool := isDigitA c || isPyWs c || c = '-'

/-- Try middle lengths k, k-1, ..., 7: accept when a digit follows.  Returns
the middle together with the final digit, and the rest of the input. -/
def tryPhoneLen (rest : List Char) : Nat → Option (List Char × List Char)
  | 0 => none
  | k+1 =>
    if k+1 < 7 then none
    else
      match rest.drop (k+1) with
      | c :: r2 =>
        if isDigitA c then some (rest.take (k+1) ++ [c], r2) else tryPhoneLen rest k
      | [] => tryPhoneLen rest k

/-- Attempt a phone match anchored at the head of cs. -/
def matchPhoneAt (cs : List Char) : Option (List Char × List Char) :=
  let (plusPart, cs1) :=
    match cs with
    | '+' :: r => (['+'], r)
    | _ => (([] : List Char), cs)
  match cs1 with
  | d0 :: rest =>
    if isDigitA d0 then
      match tryPhoneLen rest (rest.takeWhile isPhoneMid).length with
      | some (mid, r) => some (plusPart ++ d0 :: mid, r)
      | none => none
    else none
  | [] => none

/-- Scan for all phone matches left to right (fuel as for emails). -/
def findAllPhonesAux : Nat → List Char → List (List Char)
  | 0, _ => []
  | _, [] => []
  | fuel+1, c :: cs =>
    match matchPhoneAt (c :: cs) with
    | some (m, r) => m :: findAllPhonesAux fuel r
    | none => findAllPhonesAux fuel cs

/-- main.py lines 106-108: extract_phones. -/
def extract_phones (text : String) : List String :=
  let ms := findAllPhonesAux text.toList.length text.toList
  if ms.isEmpty then ["-"] else ms.map String.mk

/-! ## Normalizers: clean_email and clean_phone (main.py lines 110-146) -/

/-- The class [a-zA-Z0-9@._-] kept by the re.sub of clean_email. -/
def isEmailKeep (c : Char) : Bool :=
  isAlphaA c || isDigitA c || c = '@' || c = '.' || c = '_' || c = '-'

/-- Body of the loop of clean_email (main.py lines 118-122): strip the
candidate to [a-zA-Z0-9@._-] and trim, keep it when its length exceeds 5 and
validate_email accepts it, lower-casing the kept candidate. -/
def emailKeepFun (e : List Char) : Option (List Char) :=
  let e2 := pyStrip (e.filter isEmailKeep)
  if 5 < e2.length ∧ validate_email (String.mk e2) = true then some (e2.map pyLower)
  else none

/-- clean_email after the sentinel test: split, filter and clean, dedup. -/
def cleanEmailCore (cs : List Char) : List (List Char) :=
  dedupFirst ((splitCS cs).filterMap emailKeepFun)

/-- main.py lines 110-126: clean_email. -/
def clean_email (email_str : String) : String :=
  if email_str = "" ∨ email_str = "-" then "-"
  else
    let unique_emails := cleanEmailCore email_str.toList
    if unique_emails = [] then "-" else String.mk (joinCS unique_emails)

/-- The class [\d+\-\s] kept by the re.sub of clean_phone. -/
def isPhoneKeep (c : Char) : Bool := isDigitA c || c = '+' || c = '-' || isPyWs c

/-- Body of the loop of clean_phone (main.py lines 136-142): strip the
candidate to [\d+\-\s] and trim, keep it when its digit count is between 7 and
15. -/
def phoneKeepFun (p : List Char) : Option (List Char) :=
  let p2 := pyStrip (p.filter isPhoneKeep)
  let digits := p2.filter isDigitA
  if 7 ≤ digits.length ∧ digits.length ≤ 15 then some p2 else none

/-- clean_phone after the sentinel test: split, filter and clean, dedup. -/
def cleanPhoneCore (cs : List Char) : List (List Char) :=
  dedupFirst ((splitCS cs).filterMap phoneKeepFun)

/-- main.py lines 128-146: clean_phone. -/
def clean_phone (phone_str : String) : String :=
  if phone_str = "" ∨ phone_str = "-" then "-"
  else
    let unique_phones := cleanPhoneCore phone_str.toList
    if unique_phones = [] then "-" else String.mk (joinCS unique_phones)

/-! ## clean_name and extract_domain_name (main.py lines 148-173) -/

/-- True when every newline of the list is its final character: then the
suffix after a delimiter can be completed by greedy dot-star to a position
where the dollar anchor matches. -/
def tailOk : List Char → Bool
  | [] => true
  | c :: rest => if rest = [] then true else c ≠ '\n' && tailOk rest

/-- True when the list has no newline. -/
def noNL (cs : List Char) : Bool := !(cs.contains '\n')

/-- The single substitution of re.sub(r of \s* then [|-] then dot-star then
dollar, empty, name): scanning left to right, at the first position where the
maximal whitespace run is followed by a vertical bar or hyphen whose tail can
reach a dollar position (`tailOk`), remove from that position to the end
(keeping one final newline when the dollar matched before it).  The pattern
cannot match twice because every match ends at the end of the string or just
before its final newline. -/
def subTrunc : List Char → List Char
  | [] => []
  | c :: rest =>
    match dropLeadWs (c :: rest) with
    | d :: t =>
      if (d = '|' ∨ d = '-') ∧ tailOk t = true then (if noNL t then [] else ['\n'])
      else c :: subTrunc rest
    | [] => c :: subTrunc rest

/-- Helper of `collapseWs`: the flag records whether the previous character
was whitespace (so that a whitespace run yields one space). -/
def collapseWsAux : Bool → List Char → List Char
  | _, [] => []
  | prevWs, c :: rest =>
    if isPyWs c then
      if prevWs then collapseWsAux true rest else ' ' :: collapseWsAux true rest
    else c :: collapseWsAux false rest

/-- re.sub(r of \s+, one space, name): replace every maximal whitespace run by
a single space. -/
def collapseWs (cs : List Char) : List Char := collapseWsAux false cs

/-- main.py lines 148-159: extract_domain_name.  Remove the scheme and www
prefix when present, take the segment before the first dot or slash, keep only
alphanumerics, capitalize (Python capitalize lowercases the rest). -/
def extract_domain_name (url : String) : String :=
  let cs := url.toList
  let cs1 :=
    if cs.take 8 = "https://".toList then
      let r := cs.drop 8
      if r.take 4 = "www.".toList then r.drop 4 else r
    else if cs.take 7 = "http://".toList then
      let r := cs.drop 7
      if r.take 4 = "www.".toList then r.drop 4 else r
    else cs
  let seg := cs1.takeWhile (fun c => ¬(c = '.' ∨ c = '/'))
  let dom := seg.filter (fun c => isAlphaA c || isDigitA c)
  match dom with
  | [] => "Unknown"
  | c :: rest => String.mk (pyUpper c :: rest.map pyLower)

/-- The fixed list of generic placeholder names (main.py line 168). -/
def generic_names : List String :=
  ["contact us", "contact", "home", "enquiries", "about us", "enquiry"]

/-- The cleaned name before the generic test: truncate, collapse whitespace,
trim. -/
def nameCore (name : String) : List Char := pyStrip (collapseWs (subTrunc name.toList))

/-- main.py lines 161-173: clean_name. -/
def clean_name (name : String) (website : String) : String :=
  let n2 := nameCore name
  if String.mk (n2.map pyLower) ∈ generic_names ∧ website ≠ "" then
    extract_domain_name website ++ " Restaurant"
  else if n2 = [] then "Unknown Restaurant"
  else String.mk n2

/-! ## JSON values and the two stores (main.py lines 224-256)

`Option (Except String Json)` models what the pair of os.path.exists and
json.load delivers: `none` is an absent file, `some (.error e)` is a file
whose parse raises (json.JSONDecodeError or UnicodeDecodeError), and
`some (.ok j)` is a parsed value.  The state and records files are written by
json.dump, whose number and string serialization round-trips. -/

/-- JSON values (the files of this program hold only objects, arrays, strings
and integers). -/
inductive Json where
  | null : Json
  | bool (b : Bool) : Json
  | num (n : Int) : Json
  | str (s : String) : Json
  | arr (xs : List Json) : Json
  | obj (kvs : List (String × Json)) : Json

/-- The default state dictionary of main.py line 245. -/
def defaultStateJson : Json :=
  Json.obj [("start_index", Json.num 1), ("scraped_urls", Json.arr [])]

/-- main.py lines 241-245: load_state.  There is no try block: when the file
exists, the result (or the exception) of json.load is passed through. -/
def load_state (file : Option (Except String Json)) : Except String Json :=
  match file with
  | none => Except.ok defaultStateJson
  | some r => r

/-- main.py lines 224-239: load_existing_data.  An absent file, a failed
parse, or a parsed value that is not a list all give the empty list. -/
def load_existing_data (file : Option (Except String Json)) : List Json :=
  match file with
  | none => []
  | some (Except.error _) => []
  | some (Except.ok (Json.arr xs)) => xs
  | some (Except.ok _) => []

/-- The run state as the orchestrator uses it: the dictionary with the
start_index integer and the scraped_urls list of strings. -/
structure RunState where
  start_index : Int
  scraped_urls : List String
deriving DecidableEq

/-- Serialization of the state dictionary as json.dump writes it. -/
def stateToJson (st : RunState) : Json :=
  Json.obj
    [("start_index", Json.num st.start_index),
     ("scraped_urls", Json.arr (st.scraped_urls.map Json.str))]

/-- main.py lines 247-256: save_state; the file afterwards parses to the
serialized dictionary. -/
def save_state (st : RunState) : Except String Json := Except.ok (stateToJson st)

/-- Python dictionary field access on a parsed JSON object. -/
def lookupField : List (String × Json) → String → Option Json
  | [], _ => none
  | (k, v) :: rest, key => if k = key then some v else lookupField rest key

/-- Decode a JSON array of strings, as the orchestrator uses scraped_urls. -/
def decodeUrls : List Json → Option (List String)
  | [] => some []
  | Json.str s :: rest => (decodeUrls rest).map (fun l => s :: l)
  | _ => none

/-- Reading the two fields of the loaded state, as main.py lines 355-417 do. -/
def stateOfJson : Json → Option RunState
  | Json.obj kvs =>
    match lookupField kvs "start_index", lookupField kvs "scraped_urls" with
    | some (Json.num n), some (Json.arr xs) =>
      (decodeUrls xs).map (fun urls => RunState.mk n urls)
    | _, _ => none
  | _ => none

/-! ## Search client validation (main.py lines 69-74) -/

/-- main.py lines 69-74: the validation prologue of fetch_cse_results, run
before any network request; a ValueError is modelled as `Except.error`. -/
def fetch_cse_validate (query : String) (start : Int) : Except String Unit :=
  if query = "" ∨ (pyStrip query.toList).length < 3 then
    Except.error "Query must be at least 3 characters"
  else if start < 1 ∨ start > 100 then
    Except.error "Start index must be between 1 and 100"
  else Except.ok ()

/-! ## Entities, the Gemini fallback, and the orchestrator page loop -/

/-- A restaurant record (main.py lines 399-404). -/
structure Entity where
  name : String
  website : String
  email : String
  phone : String
deriving DecidableEq

/-- A record with the contact fields set to the sentinel (main.py lines 310
and 341). -/
def markMissing (r : Entity) : Entity :=
  { name := r.name, website := r.website, email := "-", phone := "-" }

/-- main.py lines 328-335: assign extracted emails to the batch in order; the
index advances only when an email is assigned, so once a sentinel heads the
remaining emails every later entity receives the sentinel. -/
def geminiAssign : List Entity → List String → List Entity
  | [], _ => []
  | r :: rs, [] => markMissing r :: geminiAssign rs []
  | r :: rs, e :: es =>
    if e ≠ "-" then
      { name := r.name, website := r.website, email := e, phone := "-" } :: geminiAssign rs es
    else markMissing r :: geminiAssign rs (e :: es)

/-- main.py lines 306-341: gemini_fallback_bulk, for a configured key and a
successful generate_content call whose response text is the last argument.
Only the first three submitted entities are named in the prompt and only they
receive results on the success path. -/
def gemini_fallback_bulk (hasKey : Bool) (missing_restaurants : List Entity)
    (responseText : String) : List Entity :=
  if missing_restaurants.isEmpty || !hasKey then missing_restaurants.map markMissing
  else
    let emails := extract_emails responseText
    if emails ≠ ["-"] then geminiAssign (missing_restaurants.take 3) emails
    else missing_restaurants.map markMissing

/-- One search result item (title, snippet, link), main.py lines 371-373. -/
structure Item where
  title : String
  snippet : String
  link : String
deriving DecidableEq

/-- Python join of a list of strings with the comma-space separator. -/
def joinStrs (l : List String) : String := String.mk (joinCS (l.map String.toList))

/-- The configured page size NUM_RESULTS (main.py line 24). -/
def NUM_RESULTS : Int := 10

/-- main.py lines 366-407: the body of the page loop for one item.  The
accumulator is (records, scraped urls, count of new records); fetch models
scrape_website_content.  Invalid links and already scraped links are skipped;
otherwise emails come from the snippet, with one website fetch retry when the
snippet had none, and the record is appended and the link recorded. -/
def processItem (fetch : String → String) (acc : List Entity × List String × Nat)
    (item : Item) : List Entity × List String × Nat :=
  let (restaurants, scraped, newCount) := acc
  if validate_url item.link = false then acc
  else if item.link ∈ scraped then acc
  else
    let emails0 := extract_emails item.snippet
    let phones := extract_phones item.snippet
    let emails :=
      if emails0 = ["-"] then
        let content := fetch item.link
        if content ≠ "" then
          let we := extract_emails content
          if we ≠ ["-"] then we else emails0
        else emails0
      else emails0
    let entity : Entity :=
      { name := clean_name item.title item.link
        website := item.link
        email := clean_email (joinStrs emails)
        phone := clean_phone (joinStrs phones) }
    (restaurants ++ [entity], scraped ++ [item.link], newCount + 1)

/-- main.py lines 346-418 (the page part of main): with a non-empty result
page, run the loop over all items, then advance start_index by NUM_RESULTS;
with an empty page, return early without touching the state.  Returns the
records, the new state, and the count of new records. -/
def main_run (fetch : String → String) (restaurants : List Entity) (st : RunState)
    (results : List Item) : List Entity × RunState × Nat :=
  if results = [] then (restaurants, st, 0)
  else
    let out := results.foldl (processItem fetch) (restaurants, st.scraped_urls, 0)
    (out.1, RunState.mk (st.start_index + NUM_RESULTS) out.2.1, out.2.2)

/-! ## Specification-side definitions

The definitions below follow the wording of the specification and of the
claims under audit, written independently of the source embeddings above, to
be compared with them. -/

/-- Split a list at the first occurrence of a character; none when the
character does not occur. -/
def splitFirstChar (a : Char) : List Char → Option (List Char × List Char)
  | [] => none
  | c :: rest =>
    if c = a then some ([], rest)
    else
      match splitFirstChar a rest with
      | some (l, r) => some (c :: l, r)
      | none => none

/-- Split a list at the last occurrence of a character; none when the
character does not occur. -/
def splitLastChar (a : Char) : List Char → Option (List Char × List Char)
  | [] => none
  | c :: rest =>
    match splitLastChar a rest with
    | some (l, r) => some (c :: l, r)
    | none => if c = a then some ([], rest) else none

/-- Deterministic check of the strict email pattern, following the amended
claim wording: a nonempty local part of allowed characters before the unique
at sign; after it a nonempty domain of allowed characters, a dot, and a tail
of at least two letters (the last dot, since only letters may follow it). -/
def specEmailMatch (cs : List Char) : Bool :=
  match splitFirstChar '@' cs with
  | none => false
  | some (lp, dp) =>
    !lp.isEmpty && lp.all isL &&
      (match splitLastChar '.' dp with
       | none => false
       | some (d, t) => !d.isEmpty && d.all isD && decide (2 ≤ t.length) && t.all isT)

/-- clean_email as the amended claim C1 words it: split on the separator,
strip every character outside [A-Za-z0-9@._-] from each candidate, keep
exactly the candidates that fully match the strict email pattern, lower-case
the survivors, drop exact duplicates keeping first occurrences, rejoin; the
sentinel on empty or sentinel input or when nothing survives. -/
def cleanEmailSpec (s : String) : String :=
  if s.toList = [] ∨ s.toList = ['-'] then "-"
  else
    let survivors :=
      ((splitCS s.toList).map (fun e => e.filter isEmailKeep)).filter
        (fun e => specEmailMatch e)
    match dedupFirst (survivors.map (fun e => e.map pyLower)) with
    | [] => "-"
    | u => String.mk (joinCS u)

/-- The keep test exactly as claim C1 words it: the candidate contains an at
sign, and the substring after the last at sign contains a dot. -/
def claimEmailKeep (e : List Char) : Bool :=
  match splitLastChar '@' e with
  | none => false
  | some (_, t) => t.contains '.'

/-- clean_email as claim C1 words it, with the keep test under audit. -/
def cleanEmailClaim (s : String) : String :=
  if s.toList = [] ∨ s.toList = ['-'] then "-"
  else
    let survivors :=
      ((splitCS s.toList).map (fun e => e.filter isEmailKeep)).filter claimEmailKeep
    match dedupFirst (survivors.map (fun e => e.map pyLower)) with
    | [] => "-"
    | u => String.mk (joinCS u)

/-- The keep class exactly as claim C7 words it: digits, plus, hyphen, and
the space character only. -/
def isClaimPhoneKeep (c : Char) : Bool := isDigitA c || c = '+' || c = '-' || c = ' '

/-- clean_phone as claim C7 words it: strip characters outside digits, plus,
hyphen and space, keep candidates whose digit count lies between 7 and 15,
dedup preserving order, rejoin; the sentinel on empty or sentinel input or
when every candidate fails. -/
def cleanPhoneClaim (s : String) : String :=
  if s.toList = [] ∨ s.toList = ['-'] then "-"
  else
    let survivors :=
      ((splitCS s.toList).map (fun p => p.filter isClaimPhoneKeep)).filter
        (fun p => decide (7 ≤ (p.filter isDigitA).length ∧ (p.filter isDigitA).length ≤ 15))
    match dedupFirst survivors with
    | [] => "-"
    | u => String.mk (joinCS u)

/-- clean_phone as the amended claim words it: strip characters outside
digits, plus, hyphen and whitespace, trim surrounding whitespace, keep
candidates whose digit count lies between 7 and 15, dedup preserving first
occurrences, rejoin; the sentinel exactly on empty or sentinel input or when
every candidate fails the digit count. -/
def cleanPhoneSpec (s : String) : String :=
  if s.toList = [] ∨ s.toList = ['-'] then "-"
  else
    let survivors :=
      ((splitCS s.toList).map
          (fun p => pyStrip (p.filter (fun c => isDigitA c || c = '+' || c = '-' || isPyWs c)))).filter
        (fun p => decide (7 ≤ (p.filter isDigitA).length ∧ (p.filter isDigitA).length ≤ 15))
    match dedupFirst survivors with
    | [] => "-"
    | u => String.mk (joinCS u)

/-- Spec-side truncation test at a position: an optional whitespace run
followed by a vertical bar or a hyphen. -/
def startsTrunc (cs : List Char) : Bool :=
  match dropLeadWs cs with
  | d :: _ => d = '|' || d = '-'
  | [] => false

/-- The first truncation position (the length of the kept prefix) as the
claim words it: the first position where optional whitespace is followed by a
vertical bar or a hyphen; the full length when there is none. -/
def findTruncIdx : List Char → Nat
  | [] => 0
  | c :: rest => if startsTrunc (c :: rest) then 0 else 1 + findTruncIdx rest

/-- Spec-side zip of the fallback resolver results: one result per submitted
entity in order, the extracted emails assigned in order, the sentinel beyond
their count. -/
def geminiZipSpec : List Entity → List String → List Entity
  | [], _ => []
  | r :: rs, [] =>
    { name := r.name, website := r.website, email := "-", phone := "-" } :: geminiZipSpec rs []
  | r :: rs, e :: es =>
    { name := r.name, website := r.website, email := e, phone := "-" } :: geminiZipSpec rs es

/-! ## Lemmas about the ASCII case map -/

theorem toNat_ofNat_small (n : Nat) (h1 : 97 ≤ n) (h2 : n ≤ 122) :
    (Char.ofNat n).toNat = n := by
  interval_cases n <;> decide

theorem pyLower_of_not_upper (c : Char) (h : isUpperAZ c = false) : pyLower c = c := by
  unfold pyLower
  rw [h]
  simp

theorem pyLower_toNat_of_upper (c : Char) (h : isUpperAZ c = true) :
    (pyLower c).toNat = c.toNat + 32 := by
  have hb : (65 ≤ c.toNat ∧ c.toNat ≤ 90) := by
    simpa [isUpperAZ, Bool.and_eq_true] using h
  unfold pyLower
  rw [h]
  simp only [if_true]
  exact toNat_ofNat_small (c.toNat + 32) (by omega) (by omega)

theorem pyLower_alpha (c : Char) (h : isAlphaA c = true) : isAlphaA (pyLower c) = true := by
  by_cases hu : isUpperAZ c = true
  · have ht := pyLower_toNat_of_upper c hu
    have hb : (65 ≤ c.toNat ∧ c.toNat ≤ 90) := by
      simpa [isUpperAZ, Bool.and_eq_true] using hu
    simp only [isAlphaA, isLowerAZ, isUpperAZ, Bool.or_eq_true, Bool.and_eq_true,
      decide_eq_true_eq, ht]
    right
    omega
  · rw [pyLower_of_not_upper c (by simpa using hu)]
    exact h

theorem pyLower_idem (c : Char) : pyLower (pyLower c) = pyLower c := by
  by_cases hu : isUpperAZ c = true
  · have ht := pyLower_toNat_of_upper c hu
    have hb : (65 ≤ c.toNat ∧ c.toNat ≤ 90) := by
      simpa [isUpperAZ, Bool.and_eq_true] using hu
    apply pyLower_of_not_upper
    simp only [isUpperAZ, ht, Bool.and_eq_false_iff, decide_eq_false_iff_not]
    right
    omega
  · rw [pyLower_of_not_upper c (by simpa using hu), pyLower_of_not_upper c (by simpa using hu)]

theorem pyLower_isL (c : Char) (h : isL c = true) : isL (pyLower c) = true := by
  by_cases hu : isUpperAZ c = true
  · have ha : isAlphaA (pyLower c) = true := pyLower_alpha c (by simp [isAlphaA, hu])
    simp [isL, ha]
  · rw [pyLower_of_not_upper c (by simpa using hu)]
    exact h

theorem pyLower_isEmailKeep (c : Char) (h : isEmailKeep c = true) :
    isEmailKeep (pyLower c) = true := by
  by_cases hu : isUpperAZ c = true
  · have ha : isAlphaA (pyLower c) = true := pyLower_alpha c (by simp [isAlphaA, hu])
    simp [isEmailKeep, ha]
  · rw [pyLower_of_not_upper c (by simpa using hu)]
    exact h

theorem ek_toNat (c : Char) (h : isEmailKeep c = true) :
    (65 ≤ c.toNat ∧ c.toNat ≤ 90) ∨ (97 ≤ c.toNat ∧ c.toNat ≤ 122) ∨
    (48 ≤ c.toNat ∧ c.toNat ≤ 57) ∨ c.toNat = 64 ∨ c.toNat = 46 ∨ c.toNat = 95 ∨
    c.toNat = 45 := by
  simp only [isEmailKeep, isAlphaA, isUpperAZ, isLowerAZ, isDigitA, Bool.or_eq_true,
    Bool.and_eq_true, decide_eq_true_eq] at h
  rcases h with (((((h | h) | h) | rfl) | rfl) | rfl) | rfl <;> simp_all

theorem isEmailKeep_not_ws (c : Char) (h : isEmailKeep c = true) : isPyWs c = false := by
  have h2 := ek_toNat c h
  simp only [isPyWs, Bool.or_eq_false_iff, Bool.and_eq_false_iff, decide_eq_false_iff_not]
  omega

theorem isEmailKeep_ne_comma (c : Char) (h : isEmailKeep c = true) : c ≠ ',' := by
  intro hc
  subst hc
  simp [isEmailKeep, isAlphaA, isUpperAZ, isLowerAZ, isDigitA] at h

theorem isPhoneKeep_ne_comma (c : Char) (h : isPhoneKeep c = true) : c ≠ ',' := by
  intro hc
  subst hc
  simp [isPhoneKeep, isPyWs, isDigitA] at h

/-! ## Lemmas about strip -/

theorem dropLeadWs_sub (cs : List Char) : ∀ c ∈ dropLeadWs cs, c ∈ cs := by
  induction cs with
  | nil => simp [dropLeadWs]
  | cons a rest ih =>
    intro c hc
    by_cases ha : isPyWs a = true
    · simp only [dropLeadWs, ha, if_true] at hc
      exact List.mem_cons_of_mem a (ih c hc)
    · simp only [dropLeadWs, ha] at hc
      simpa using hc

theorem dropLeadWs_head (cs : List Char) :
    dropLeadWs cs = [] ∨ ∃ c t, dropLeadWs cs = c :: t ∧ isPyWs c = false := by
  induction cs with
  | nil => left; rfl
  | cons a rest ih =>
    by_cases ha : isPyWs a = true
    · simpa only [dropLeadWs, ha, if_true] using ih
    · right
      exact ⟨a, rest, by simp [dropLeadWs, ha], by simpa using ha⟩

theorem dropLeadWs_noop (cs : List Char) (h : ∀ c ∈ cs, isPyWs c = false) :
    dropLeadWs cs = cs := by
  cases cs with
  | nil => rfl
  | cons a rest => simp [dropLeadWs, h a (List.mem_cons_self a rest)]

theorem dropLeadWs_noop_head (cs : List Char) (a : Char) (h : cs.head? = some a)
    (ha : isPyWs a = false) : dropLeadWs cs = cs := by
  cases cs with
  | nil => rfl
  | cons b rest =>
    simp only [List.head?_cons, Option.some.injEq] at h
    subst h
    simp [dropLeadWs, ha]

theorem trimEndWs_cons (a : Char) (rest : List Char) :
    trimEndWs (a :: rest) =
      if trimEndWs rest = [] then (if isPyWs a then [] else [a])
      else a :: trimEndWs rest := rfl

theorem trimEndWs_sub (cs : List Char) : ∀ c ∈ trimEndWs cs, c ∈ cs := by
  induction cs with
  | nil => simp [trimEndWs]
  | cons a rest ih =>
    intro c hc
    rw [trimEndWs_cons] at hc
    by_cases hr : trimEndWs rest = []
    · rw [if_pos hr] at hc
      by_cases ha : isPyWs a = true
      · simp [ha] at hc
      · rw [if_neg ha] at hc
        simp only [List.mem_singleton] at hc
        subst hc
        exact List.mem_cons_self c rest
    · rw [if_neg hr] at hc
      rcases List.mem_cons.mp hc with h | h
      · subst h
        exact List.mem_cons_self c rest
      · exact List.mem_cons_of_mem a (ih c h)

theorem trimEndWs_noop (cs : List Char) (h : ∀ c ∈ cs, isPyWs c = false) :
    trimEndWs cs = cs := by
  induction cs with
  | nil => rfl
  | cons a rest ih =>
    have hrest : trimEndWs rest = rest := ih (fun c hc => h c (List.mem_cons_of_mem a hc))
    rw [trimEndWs_cons, hrest]
    cases rest with
    | nil => simp [h a (List.mem_cons_self a [])]
    | cons b t => rfl

theorem trimEndWs_head? (cs : List Char) :
    trimEndWs cs = [] ∨ (trimEndWs cs).head? = cs.head? := by
  cases cs with
  | nil => left; rfl
  | cons a rest =>
    rw [trimEndWs_cons]
    by_cases hr : trimEndWs rest = []
    · rw [if_pos hr]
      by_cases ha : isPyWs a = true
      · left; simp [ha]
      · right; simp [ha]
    · right
      rw [if_neg hr]
      rfl

theorem trimEndWs_idem (cs : List Char) : trimEndWs (trimEndWs cs) = trimEndWs cs := by
  induction cs with
  | nil => rfl
  | cons a rest ih =>
    rw [trimEndWs_cons]
    by_cases hr : trimEndWs rest = []
    · rw [if_pos hr]
      by_cases ha : isPyWs a = true
      · rw [if_pos ha]
        rfl
      · rw [if_neg ha, trimEndWs_cons]
        simp [ha, trimEndWs]
    · rw [if_neg hr, trimEndWs_cons, ih, if_neg hr]

theorem pyStrip_idem (cs : List Char) : pyStrip (pyStrip cs) = pyStrip cs := by
  unfold pyStrip
  have hd : dropLeadWs (trimEndWs (dropLeadWs cs)) = trimEndWs (dropLeadWs cs) := by
    rcases trimEndWs_head? (dropLeadWs cs) with h | h
    · rw [h]; rfl
    · rcases dropLeadWs_head cs with h2 | ⟨c, t, h2, hc⟩
      · rw [h2]
        rfl
      · apply dropLeadWs_noop_head _ c _ hc
        rw [h, h2]
        rfl
  rw [hd, trimEndWs_idem]

theorem pyStrip_sub (cs : List Char) : ∀ c ∈ pyStrip cs, c ∈ cs := by
  intro c hc
  exact dropLeadWs_sub cs c (trimEndWs_sub (dropLeadWs cs) c hc)

theorem pyStrip_noop (cs : List Char) (h : ∀ c ∈ cs, isPyWs c = false) :
    pyStrip cs = cs := by
  unfold pyStrip
  rw [dropLeadWs_noop cs h, trimEndWs_noop cs h]

/-! ## Lemmas about split, join, and first-occurrence dedup -/

theorem splitCS_cons_ne (c : Char) (cs : List Char) (hc : c ≠ ',') :
    splitCS (c :: cs) =
      match splitCS cs with
      | h :: t => (c :: h) :: t
      | [] => [[c]] := by
  cases cs with
  | nil => simp [splitCS]
  | cons c2 rest =>
    have hne : ¬(c = ',' ∧ c2 = ' ') := by
      intro hand
      exact hc hand.1
    simp only [splitCS, if_neg hne]

theorem splitCS_append_sep (e : List Char) (r : List Char) (he : ',' ∉ e) :
    splitCS (e ++ ',' :: ' ' :: r) = e :: splitCS r := by
  induction e with
  | nil =>
    show splitCS (',' :: ' ' :: r) = [] :: splitCS r
    simp [splitCS]
  | cons c e2 ih =>
    have hc : c ≠ ',' := fun h => he (h ▸ List.mem_cons_self c e2)
    have he2 : ',' ∉ e2 := fun h => he (List.mem_cons_of_mem c h)
    rw [List.cons_append, splitCS_cons_ne c _ hc, ih he2]

theorem splitCS_no_comma (e : List Char) (he : ',' ∉ e) : splitCS e = [e] := by
  induction e with
  | nil => rfl
  | cons c e2 ih =>
    have hc : c ≠ ',' := fun h => he (h ▸ List.mem_cons_self c e2)
    have he2 : ',' ∉ e2 := fun h => he (List.mem_cons_of_mem c h)
    rw [splitCS_cons_ne c _ hc, ih he2]

theorem splitCS_joinCS (l : List (List Char)) (hl : l ≠ [])
    (hc : ∀ e ∈ l, ',' ∉ e) : splitCS (joinCS l) = l := by
  induction l with
  | nil => exact absurd rfl hl
  | cons x xs ih =>
    cases xs with
    | nil => exact splitCS_no_comma x (hc x (List.mem_cons_self x []))
    | cons y ys =>
      show splitCS (x ++ ',' :: ' ' :: joinCS (y :: ys)) = x :: y :: ys
      rw [splitCS_append_sep x _ (hc x (List.mem_cons_self x _)),
        ih (by simp) (fun e hE => hc e (List.mem_cons_of_mem x hE))]

theorem joinCS_cons (x : List Char) (xs : List (List Char)) :
    ∃ r, joinCS (x :: xs) = x ++ r := by
  cases xs with
  | nil => exact ⟨[], by simp [joinCS]⟩
  | cons y ys => exact ⟨',' :: ' ' :: joinCS (y :: ys), rfl⟩

theorem dedupAux_sub {α : Type} [DecidableEq α] (seen : List α) (l : List α) :
    ∀ x ∈ dedupAux seen l, x ∈ l := by
  induction l generalizing seen with
  | nil => simp [dedupAux]
  | cons y ys ih =>
    intro x hx
    by_cases hy : y ∈ seen
    · simp only [dedupAux, if_pos hy] at hx
      exact List.mem_cons_of_mem y (ih seen x hx)
    · simp only [dedupAux, if_neg hy] at hx
      rcases List.mem_cons.mp hx with h | h
      · exact h ▸ List.mem_cons_self y ys
      · exact List.mem_cons_of_mem y (ih (seen ++ [y]) x h)

theorem dedupAux_not_seen {α : Type} [DecidableEq α] (seen : List α) (l : List α) :
    ∀ x ∈ dedupAux seen l, x ∉ seen := by
  induction l generalizing seen with
  | nil => simp [dedupAux]
  | cons y ys ih =>
    intro x hx
    by_cases hy : y ∈ seen
    · simp only [dedupAux, if_pos hy] at hx
      exact ih seen x hx
    · simp only [dedupAux, if_neg hy] at hx
      rcases List.mem_cons.mp hx with h | h
      · exact h ▸ hy
      · intro hseen
        exact ih (seen ++ [y]) x h (List.mem_append_left [y] hseen)

theorem dedupAux_nodup {α : Type} [DecidableEq α] (seen : List α) (l : List α) :
    (dedupAux seen l).Nodup := by
  induction l generalizing seen with
  | nil => simp [dedupAux]
  | cons y ys ih =>
    by_cases hy : y ∈ seen
    · simpa only [dedupAux, if_pos hy] using ih seen
    · simp only [dedupAux, if_neg hy]
      refine List.nodup_cons.mpr ⟨?_, ih (seen ++ [y])⟩
      intro hmem
      exact dedupAux_not_seen (seen ++ [y]) ys y hmem
        (List.mem_append_right seen (List.mem_singleton.mpr rfl))

theorem dedupAux_eq_self {α : Type} [DecidableEq α] (seen : List α) (l : List α)
    (hn : l.Nodup) (hd : ∀ x ∈ l, x ∉ seen) : dedupAux seen l = l := by
  induction l generalizing seen with
  | nil => rfl
  | cons y ys ih =>
    have hy : y ∉ seen := hd y (List.mem_cons_self y ys)
    simp only [dedupAux, if_neg hy]
    congr 1
    apply ih (seen ++ [y]) (List.nodup_cons.mp hn).2
    intro x hx hmem
    rcases List.mem_append.mp hmem with h | h
    · exact hd x (List.mem_cons_of_mem y hx) h
    · rw [List.mem_singleton] at h
      exact (List.nodup_cons.mp hn).1 (h ▸ hx)

theorem dedupFirst_sub {α : Type} [DecidableEq α] (l : List α) :
    ∀ x ∈ dedupFirst l, x ∈ l := dedupAux_sub [] l

theorem dedupFirst_nodup {α : Type} [DecidableEq α] (l : List α) :
    (dedupFirst l).Nodup := dedupAux_nodup [] l

theorem dedupFirst_eq_self {α : Type} [DecidableEq α] (l : List α) (hn : l.Nodup) :
    dedupFirst l = l := dedupAux_eq_self [] l hn (by simp)

/-! ## General helpers about filterMap -/

theorem filterMap_if {α β γ : Type} (f : α → β) (p : β → Prop) [DecidablePred p]
    (g : β → γ) (l : List α) :
    l.filterMap (fun a => if p (f a) then some (g (f a)) else none) =
      ((l.map f).filter (fun b => decide (p b))).map g := by
  induction l with
  | nil => rfl
  | cons a l2 ih =>
    simp only [List.filterMap_cons, List.map_cons, List.filter_cons]
    by_cases hp : p (f a)
    · simp [hp, ih]
    · simp [hp, ih]

theorem filterMap_eq_self {α : Type} (f : α → Option α) (l : List α)
    (h : ∀ a ∈ l, f a = some a) : l.filterMap f = l := by
  induction l with
  | nil => rfl
  | cons a l2 ih =>
    rw [List.filterMap_cons, h a (List.mem_cons_self a l2),
      ih (fun b hb => h b (List.mem_cons_of_mem a hb))]

/-! ## The decomposition shape of a strict email match -/

theorem pyLower_isD (c : Char) (h : isD c = true) : isD (pyLower c) = true := by
  by_cases hu : isUpperAZ c = true
  · have ha : isAlphaA (pyLower c) = true := pyLower_alpha c (by simp [isAlphaA, hu])
    simp [isD, ha]
  · rw [pyLower_of_not_upper c (by simpa using hu)]
    exact h

theorem pyLower_isT (c : Char) (h : isT c = true) : isT (pyLower c) = true := by
  simpa [isT] using pyLower_alpha c (by simpa [isT] using h)

/-- The decomposition denoted by the part of the pattern after the at sign. -/
def DomShape (ds : List Char) : Prop :=
  ∃ d t, ds = d ++ '.' :: t ∧ d ≠ [] ∧ (∀ c ∈ d, isD c = true) ∧
    2 ≤ t.length ∧ (∀ c ∈ t, isT c = true)

/-- The decomposition denoted by the whole anchored email pattern. -/
def EmailShape (cs : List Char) : Prop :=
  ∃ lp rest, cs = lp ++ '@' :: rest ∧ lp ≠ [] ∧ (∀ c ∈ lp, isL c = true) ∧ DomShape rest

theorem domFullMatch_iff (ds : List Char) : domFullMatch ds = true ↔ DomShape ds := by
  constructor
  · intro h
    simp only [domFullMatch, List.any_eq_true, List.mem_range, Bool.and_eq_true,
      decide_eq_true_eq, List.all_eq_true] at h
    obtain ⟨k, hk, ⟨⟨⟨hk1, hD⟩, hdot⟩, hT⟩, hlen⟩ := h
    refine ⟨ds.take k, ds.drop (k+1), ?_, ?_, hD, hlen, hT⟩
    · have hsplit := List.take_append_drop k ds
      cases hd : ds.drop k with
      | nil => rw [hd] at hdot; simp at hdot
      | cons a rest2 =>
        have ha : a = '.' := by
          rw [hd] at hdot
          simpa using hdot
        have hrest : rest2 = ds.drop (k+1) := by
          have := List.tail_drop ds k
          rw [hd] at this
          simpa using this
        conv_lhs => rw [← hsplit]
        rw [hd, ha, hrest]
    · intro hnil
      have := congrArg List.length hnil
      simp only [List.length_take, List.length_nil] at this
      omega
  · intro h
    obtain ⟨d, t, rfl, hd, hD, hlen, hT⟩ := h
    simp only [domFullMatch, List.any_eq_true, List.mem_range, Bool.and_eq_true,
      decide_eq_true_eq, List.all_eq_true]
    refine ⟨d.length, ?_, ⟨⟨⟨?_, ?_⟩, ?_⟩, ?_⟩, ?_⟩
    · simp only [List.length_append, List.length_cons]
      omega
    · have : 0 < d.length := List.length_pos.mpr hd
      omega
    · rw [List.take_left]
      exact hD
    · rw [List.drop_left]
      rfl
    · intro c hc
      apply hT
      have : (d ++ '.' :: t).drop (d.length + 1) = t := by
        have : d ++ '.' :: t = (d ++ ['.']) ++ t := by simp
        rw [this]
        have hlen2 : (d ++ ['.']).length = d.length + 1 := by simp
        rw [← hlen2, List.drop_left]
      rwa [this] at hc
    · have : (d ++ '.' :: t).drop (d.length + 1) = t := by
        have : d ++ '.' :: t = (d ++ ['.']) ++ t := by simp
        rw [this]
        have hlen2 : (d ++ ['.']).length = d.length + 1 := by simp
        rw [← hlen2, List.drop_left]
      rw [this]
      exact hlen

theorem emailFullMatch_iff (cs : List Char) : emailFullMatch cs = true ↔ EmailShape cs := by
  constructor
  · intro h
    simp only [emailFullMatch, List.any_eq_true, List.mem_range, Bool.and_eq_true,
      decide_eq_true_eq] at h
    obtain ⟨i, hi, ⟨⟨hi1, hL⟩, hat⟩, hdom⟩ := h
    refine ⟨cs.take i, cs.drop (i+1), ?_, ?_, ?_, (domFullMatch_iff _).mp hdom⟩
    · have hsplit := List.take_append_drop i cs
      cases hd : cs.drop i with
      | nil => rw [hd] at hat; simp at hat
      | cons a rest2 =>
        have ha : a = '@' := by
          rw [hd] at hat
          simpa using hat
        have hrest : rest2 = cs.drop (i+1) := by
          have := List.tail_drop cs i
          rw [hd] at this
          simpa using this
        conv_lhs => rw [← hsplit]
        rw [hd, ha, hrest]
    · intro hnil
      have := congrArg List.length hnil
      simp only [List.length_take, List.length_nil] at this
      omega
    · simpa only [List.all_eq_true] using hL
  · intro h
    obtain ⟨lp, rest, rfl, hlp, hL, hdom⟩ := h
    simp only [emailFullMatch, List.any_eq_true, List.mem_range, Bool.and_eq_true,
      decide_eq_true_eq]
    refine ⟨lp.length, ?_, ⟨⟨?_, ?_⟩, ?_⟩, ?_⟩
    · simp only [List.length_append, List.length_cons]
      omega
    · have : 0 < lp.length := List.length_pos.mpr hlp
      omega
    · rw [List.take_left]
      simpa only [List.all_eq_true] using hL
    · rw [List.drop_left]
      rfl
    · have : (lp ++ '@' :: rest).drop (lp.length + 1) = rest := by
        have : lp ++ '@' :: rest = (lp ++ ['@']) ++ rest := by simp
        rw [this]
        have hlen2 : (lp ++ ['@']).length = lp.length + 1 := by simp
        rw [← hlen2, List.drop_left]
      rw [this]
      exact (domFullMatch_iff rest).mpr hdom

theorem emailShape_length (cs : List Char) (h : EmailShape cs) : 6 ≤ cs.length := by
  obtain ⟨lp, rest, rfl, hlp, _, d, t, rfl, hd, _, hlen, _⟩ := h
  have h1 : 0 < lp.length := List.length_pos.mpr hlp
  have h2 : 0 < d.length := List.length_pos.mpr hd
  simp only [List.length_append, List.length_cons]
  omega

theorem emailShape_lower (cs : List Char) (h : EmailShape cs) :
    EmailShape (cs.map pyLower) := by
  obtain ⟨lp, rest, rfl, hlp, hL, d, t, rfl, hd, hD, hlen, hT⟩ := h
  have hat : pyLower '@' = '@' := by decide
  have hdot : pyLower '.' = '.' := by decide
  refine ⟨lp.map pyLower, (d ++ '.' :: t).map pyLower, ?_, ?_, ?_, ?_⟩
  · simp [hat]
  · simpa using hlp
  · intro c hc
    rcases List.mem_map.mp hc with ⟨c0, hc0, rfl⟩
    exact pyLower_isL c0 (hL c0 hc0)
  · refine ⟨d.map pyLower, t.map pyLower, ?_, ?_, ?_, ?_, ?_⟩
    · simp [hdot]
    · simpa using hd
    · intro c hc
      rcases List.mem_map.mp hc with ⟨c0, hc0, rfl⟩
      exact pyLower_isD c0 (hD c0 hc0)
    · simpa using hlen
    · intro c hc
      rcases List.mem_map.mp hc with ⟨c0, hc0, rfl⟩
      exact pyLower_isT c0 (hT c0 hc0)

/-! ## Invariants of cleanEmailCore and idempotence of clean_email -/

theorem getLast?_mem_list {l : List Char} {a : Char} (h : l.getLast? = some a) : a ∈ l := by
  obtain ⟨h2, rfl⟩ := List.mem_getLast?_eq_getLast (Option.mem_def.mpr h)
  exact List.getLast_mem h2

theorem string_mk_dash {l : List Char} (h : String.mk l = "-") : l = ['-'] :=
  congrArg String.toList h

theorem cleanEmailCore_mem (cs : List Char) (e : List Char) (he : e ∈ cleanEmailCore cs) :
    (∀ c ∈ e, isEmailKeep c = true) ∧ EmailShape e ∧ e.map pyLower = e := by
  have he2 : e ∈ (splitCS cs).filterMap emailKeepFun := dedupFirst_sub _ e he
  obtain ⟨a, _, hfa⟩ := List.mem_filterMap.mp he2
  unfold emailKeepFun at hfa
  by_cases hcond :
      5 < (pyStrip (a.filter isEmailKeep)).length ∧
        validate_email (String.mk (pyStrip (a.filter isEmailKeep))) = true
  · rw [if_pos hcond] at hfa
    set e2 := pyStrip (a.filter isEmailKeep) with he2def
    have hkeep : ∀ c ∈ e2, isEmailKeep c = true := by
      intro c hc
      have := pyStrip_sub (a.filter isEmailKeep) c hc
      exact (List.mem_filter.mp this).2
    have hshape2 : EmailShape e2 := by
      have hval := hcond.2
      rw [validate_email] at hval
      by_cases hdash : String.mk e2 = "-"
      · have := string_mk_dash hdash
        have hlen := hcond.1
        rw [this] at hlen
        simp at hlen
      · rw [if_neg hdash] at hval
        rcases Bool.or_eq_true_iff.mp hval with hfull | hnl
        · exact (emailFullMatch_iff e2).mp (by simpa using hfull)
        · exfalso
          have hlast : (String.mk e2).toList.getLast? = some '\n' := by
            have := (Bool.and_eq_true _ _).mp hnl
            simpa using this.1
          have hmem : '\n' ∈ e2 := getLast?_mem_list hlast
          have := hkeep '\n' hmem
          simp [isEmailKeep, isAlphaA, isUpperAZ, isLowerAZ, isDigitA] at this
    have he_eq : e = e2.map pyLower := by
      injection hfa.symm
    subst he_eq
    refine ⟨?_, emailShape_lower e2 hshape2, ?_⟩
    · intro c hc
      rcases List.mem_map.mp hc with ⟨c0, hc0, rfl⟩
      exact pyLower_isEmailKeep c0 (hkeep c0 hc0)
    · rw [List.map_map]
      apply List.map_congr_left
      intro c _
      exact pyLower_idem c
  · rw [if_neg hcond] at hfa
    exact absurd hfa (by simp)

theorem cleanEmailCore_fixed (u : List (List Char)) (hu : u ≠ [])
    (hinv : ∀ e ∈ u, (∀ c ∈ e, isEmailKeep c = true) ∧ EmailShape e ∧ e.map pyLower = e)
    (hnd : u.Nodup) : cleanEmailCore (joinCS u) = u := by
  have hnc : ∀ e ∈ u, ',' ∉ e := by
    intro e heu hcm
    exact isEmailKeep_ne_comma ',' ((hinv e heu).1 ',' hcm) rfl
  unfold cleanEmailCore
  rw [splitCS_joinCS u hu hnc]
  have hfm : u.filterMap emailKeepFun = u := by
    apply filterMap_eq_self
    intro e heu
    obtain ⟨hkeep, hshape, hlow⟩ := hinv e heu
    have hfil : e.filter isEmailKeep = e := List.filter_eq_self.mpr hkeep
    have hstrip : pyStrip e = e :=
      pyStrip_noop e (fun c hc => isEmailKeep_not_ws c (hkeep c hc))
    unfold emailKeepFun
    rw [hfil, hstrip]
    have hlen : 5 < e.length := by
      have := emailShape_length e hshape
      omega
    have hval : validate_email (String.mk e) = true := by
      rw [validate_email]
      by_cases hdash : String.mk e = "-"
      · rw [if_pos hdash]
      · rw [if_neg hdash]
        have : emailFullMatch e = true := (emailFullMatch_iff e).mpr hshape
        simp [this]
    rw [if_pos ⟨hlen, hval⟩, hlow]
  rw [hfm]
  exact dedupFirst_eq_self u hnd

/-- Claim C6: clean_email is idempotent; for every input string x,
clean_email (clean_email x) = clean_email x. -/
theorem c6_clean_email_idempotent (x : String) :
    clean_email (clean_email x) = clean_email x := by
  by_cases h0 : x = "" ∨ x = "-"
  · have hx : clean_email x = "-" := by
      rw [clean_email, if_pos h0]
    rw [hx, clean_email, if_pos (Or.inr rfl)]
  · have hx : clean_email x =
        (if cleanEmailCore x.toList = [] then "-"
         else String.mk (joinCS (cleanEmailCore x.toList))) := by
      rw [clean_email, if_neg h0]
    by_cases hu : cleanEmailCore x.toList = []
    · rw [hx, if_pos hu, clean_email, if_pos (Or.inr rfl)]
    · rw [hx, if_neg hu]
      have hinv := fun e he => cleanEmailCore_mem x.toList e he
      have hnd : (cleanEmailCore x.toList).Nodup := dedupFirst_nodup _
      obtain ⟨x0, u2, hcons⟩ : ∃ x0 u2, cleanEmailCore x.toList = x0 :: u2 := by
        cases hc : cleanEmailCore x.toList with
        | nil => exact absurd hc hu
        | cons a b => exact ⟨a, b, rfl⟩
      have hx0 : 6 ≤ x0.length := by
        apply emailShape_length
        exact (hinv x0 (by rw [hcons]; exact List.mem_cons_self x0 u2)).2.1
      have hjlen : 6 ≤ (joinCS (cleanEmailCore x.toList)).length := by
        rw [hcons]
        obtain ⟨r, hr⟩ := joinCS_cons x0 u2
        rw [hr, List.length_append]
        omega
      have hyne1 : String.mk (joinCS (cleanEmailCore x.toList)) ≠ "" := by
        intro h
        have h2 : joinCS (cleanEmailCore x.toList) = ([] : List Char) :=
          congrArg String.toList h
        rw [h2] at hjlen
        simp at hjlen
      have hyne2 : String.mk (joinCS (cleanEmailCore x.toList)) ≠ "-" := by
        intro h
        have h2 := string_mk_dash h
        rw [h2] at hjlen
        simp at hjlen
      rw [clean_email, if_neg (by push_neg; exact ⟨hyne1, hyne2⟩)]
      show (if cleanEmailCore (joinCS (cleanEmailCore x.toList)) = [] then "-"
        else String.mk (joinCS (cleanEmailCore (joinCS (cleanEmailCore x.toList))))) =
          String.mk (joinCS (cleanEmailCore x.toList))
      rw [cleanEmailCore_fixed (cleanEmailCore x.toList) hu hinv hnd, if_neg hu]

/-! ## Invariants of cleanPhoneCore and idempotence of clean_phone -/

theorem cleanPhoneCore_mem (cs : List Char) (e : List Char) (he : e ∈ cleanPhoneCore cs) :
    (∀ c ∈ e, isPhoneKeep c = true) ∧ pyStrip e = e ∧
      7 ≤ (e.filter isDigitA).length ∧ (e.filter isDigitA).length ≤ 15 := by
  have he2 : e ∈ (splitCS cs).filterMap phoneKeepFun := dedupFirst_sub _ e he
  obtain ⟨a, _, hfa⟩ := List.mem_filterMap.mp he2
  unfold phoneKeepFun at hfa
  by_cases hcond :
      7 ≤ ((pyStrip (a.filter isPhoneKeep)).filter isDigitA).length ∧
        ((pyStrip (a.filter isPhoneKeep)).filter isDigitA).length ≤ 15
  · rw [if_pos hcond] at hfa
    have he_eq : e = pyStrip (a.filter isPhoneKeep) := by
      injection hfa.symm
    subst he_eq
    refine ⟨?_, ?_, hcond.1, hcond.2⟩
    · intro c hc
      have := pyStrip_sub (a.filter isPhoneKeep) c hc
      exact (List.mem_filter.mp this).2
    · exact pyStrip_idem (a.filter isPhoneKeep)
  · rw [if_neg hcond] at hfa
    exact absurd hfa (by simp)

theorem cleanPhoneCore_fixed (u : List (List Char)) (hu : u ≠ [])
    (hinv : ∀ e ∈ u, (∀ c ∈ e, isPhoneKeep c = true) ∧ pyStrip e = e ∧
      7 ≤ (e.filter isDigitA).length ∧ (e.filter isDigitA).length ≤ 15)
    (hnd : u.Nodup) : cleanPhoneCore (joinCS u) = u := by
  have hnc : ∀ e ∈ u, ',' ∉ e := by
    intro e heu hcm
    exact isPhoneKeep_ne_comma ',' ((hinv e heu).1 ',' hcm) rfl
  unfold cleanPhoneCore
  rw [splitCS_joinCS u hu hnc]
  have hfm : u.filterMap phoneKeepFun = u := by
    apply filterMap_eq_self
    intro e heu
    obtain ⟨hkeep, hstrip, hlo, hhi⟩ := hinv e heu
    have hfil : e.filter isPhoneKeep = e := List.filter_eq_self.mpr hkeep
    unfold phoneKeepFun
    rw [hfil, hstrip]
    rw [if_pos ⟨hlo, hhi⟩]
  rw [hfm]
  exact dedupFirst_eq_self u hnd

/-- Claim C10: clean_phone is idempotent; for every input string x,
clean_phone (clean_phone x) = clean_phone x.  Every element of a non-sentinel
output is already reduced to the kept character class, trimmed, comma-free,
and has a digit count in the interval from 7 to 15, so the second pass keeps
it unchanged. -/
theorem c10_clean_phone_idempotent (x : String) :
    clean_phone (clean_phone x) = clean_phone x := by
  by_cases h0 : x = "" ∨ x = "-"
  · have hx : clean_phone x = "-" := by
      rw [clean_phone, if_pos h0]
    rw [hx, clean_phone, if_pos (Or.inr rfl)]
  · have hx : clean_phone x =
        (if cleanPhoneCore x.toList = [] then "-"
         else String.mk (joinCS (cleanPhoneCore x.toList))) := by
      rw [clean_phone, if_neg h0]
    by_cases hu : cleanPhoneCore x.toList = []
    · rw [hx, if_pos hu, clean_phone, if_pos (Or.inr rfl)]
    · rw [hx, if_neg hu]
      have hinv := fun e he => cleanPhoneCore_mem x.toList e he
      have hnd : (cleanPhoneCore x.toList).Nodup := dedupFirst_nodup _
      obtain ⟨x0, u2, hcons⟩ : ∃ x0 u2, cleanPhoneCore x.toList = x0 :: u2 := by
        cases hc : cleanPhoneCore x.toList with
        | nil => exact absurd hc hu
        | cons a b => exact ⟨a, b, rfl⟩
      have hx0 : 7 ≤ x0.length := by
        have h1 := (hinv x0 (by rw [hcons]; exact List.mem_cons_self x0 u2)).2.2.1
        have h2 : (x0.filter isDigitA).length ≤ x0.length := List.length_filter_le _ _
        omega
      have hjlen : 7 ≤ (joinCS (cleanPhoneCore x.toList)).length := by
        rw [hcons]
        obtain ⟨r, hr⟩ := joinCS_cons x0 u2
        rw [hr, List.length_append]
        omega
      have hyne1 : String.mk (joinCS (cleanPhoneCore x.toList)) ≠ "" := by
        intro h
        have h2 : joinCS (cleanPhoneCore x.toList) = ([] : List Char) :=
          congrArg String.toList h
        rw [h2] at hjlen
        simp at hjlen
      have hyne2 : String.mk (joinCS (cleanPhoneCore x.toList)) ≠ "-" := by
        intro h
        have h2 := string_mk_dash h
        rw [h2] at hjlen
        simp at hjlen
      rw [clean_phone, if_neg (by push_neg; exact ⟨hyne1, hyne2⟩)]
      show (if cleanPhoneCore (joinCS (cleanPhoneCore x.toList)) = [] then "-"
        else String.mk (joinCS (cleanPhoneCore (joinCS (cleanPhoneCore x.toList))))) =
          String.mk (joinCS (cleanPhoneCore x.toList))
      rw [cleanPhoneCore_fixed (cleanPhoneCore x.toList) hu hinv hnd, if_neg hu]

/-! ## The deterministic email check agrees with the pattern denotation -/

theorem splitFirstChar_sound (a : Char) (cs l r : List Char)
    (h : splitFirstChar a cs = some (l, r)) : cs = l ++ a :: r := by
  induction cs generalizing l with
  | nil => exact absurd h (by simp [splitFirstChar])
  | cons c rest ih =>
    by_cases hca : c = a
    · subst hca
      rw [splitFirstChar, if_pos rfl] at h
      obtain ⟨rfl, rfl⟩ := Prod.mk.injEq .. ▸ Option.some.inj h
      rfl
    · rw [splitFirstChar, if_neg hca] at h
      cases hs : splitFirstChar a rest with
      | none => rw [hs] at h; exact absurd h (by simp)
      | some lr =>
        obtain ⟨l2, r2⟩ := lr
        rw [hs] at h
        have h2 := Option.some.inj h
        have hl : l = c :: l2 := (congrArg Prod.fst h2).symm
        have hr : r = r2 := (congrArg Prod.snd h2).symm
        subst hl
        subst hr
        rw [List.cons_append, ← ih l2 hs]

theorem splitFirstChar_complete (a : Char) (l r : List Char) (hl : a ∉ l) :
    splitFirstChar a (l ++ a :: r) = some (l, r) := by
  induction l with
  | nil => simp [splitFirstChar]
  | cons c l2 ih =>
    have hca : c ≠ a := fun h => hl (h ▸ List.mem_cons_self c l2)
    rw [List.cons_append, splitFirstChar, if_neg hca,
      ih (fun h => hl (List.mem_cons_of_mem c h))]

theorem splitLastChar_sound (a : Char) (cs l r : List Char)
    (h : splitLastChar a cs = some (l, r)) : cs = l ++ a :: r := by
  induction cs generalizing l with
  | nil => exact absurd h (by simp [splitLastChar])
  | cons c rest ih =>
    rw [splitLastChar] at h
    cases hs : splitLastChar a rest with
    | none =>
      rw [hs] at h
      by_cases hca : c = a
      · subst hca
        rw [if_pos rfl] at h
        obtain ⟨rfl, rfl⟩ := Prod.mk.injEq .. ▸ Option.some.inj h
        rfl
      · rw [if_neg hca] at h
        exact absurd h (by simp)
    | some lr =>
      obtain ⟨l2, r2⟩ := lr
      rw [hs] at h
      have h2 := Option.some.inj h
      have hl : l = c :: l2 := (congrArg Prod.fst h2).symm
      have hr : r = r2 := (congrArg Prod.snd h2).symm
      subst hl
      subst hr
      rw [List.cons_append, ← ih l2 hs]

theorem splitLastChar_none (a : Char) (cs : List Char) (h : a ∉ cs) :
    splitLastChar a cs = none := by
  induction cs with
  | nil => rfl
  | cons c rest ih =>
    have hca : c ≠ a := fun h2 => h (h2 ▸ List.mem_cons_self c rest)
    rw [splitLastChar, ih (fun h2 => h (List.mem_cons_of_mem c h2)), if_neg hca]

theorem splitLastChar_complete (a : Char) (l r : List Char) (hr : a ∉ r) :
    splitLastChar a (l ++ a :: r) = some (l, r) := by
  induction l with
  | nil =>
    rw [List.nil_append, splitLastChar, splitLastChar_none a r hr, if_pos rfl]
  | cons c l2 ih =>
    rw [List.cons_append, splitLastChar, ih]

theorem specEmailMatch_iff (cs : List Char) : specEmailMatch cs = true ↔ EmailShape cs := by
  constructor
  · intro h
    rw [specEmailMatch] at h
    cases hf : splitFirstChar '@' cs with
    | none =>
      simp only [hf] at h
      simp at h
    | some lpdp =>
      obtain ⟨lp, dp⟩ := lpdp
      simp only [hf] at h
      cases hl : splitLastChar '.' dp with
      | none => simp only [hl] at h; simp at h
      | some dt =>
        obtain ⟨d, t⟩ := dt
        simp only [hl] at h
        simp only [Bool.and_eq_true, Bool.not_eq_true', List.isEmpty_eq_false,
          List.all_eq_true, decide_eq_true_eq] at h
        obtain ⟨⟨hlp, hL⟩, hC⟩ := h
        obtain ⟨⟨⟨hd, hD⟩, hlen⟩, hT⟩ := hC
        refine ⟨lp, dp, splitFirstChar_sound '@' cs lp dp hf, hlp, hL,
          d, t, splitLastChar_sound '.' dp d t hl, hd, hD, hlen, hT⟩
  · intro h
    obtain ⟨lp, rest, rfl, hlp, hL, d, t, rfl, hd, hD, hlen, hT⟩ := h
    have hat : '@' ∉ lp := by
      intro hmem
      have := hL '@' hmem
      simp [isL, isAlphaA, isUpperAZ, isLowerAZ, isDigitA] at this
    have hdot : '.' ∉ t := by
      intro hmem
      have := hT '.' hmem
      simp [isT, isAlphaA, isUpperAZ, isLowerAZ] at this
    rw [specEmailMatch]
    simp only [splitFirstChar_complete '@' lp _ hat,
      splitLastChar_complete '.' d t hdot]
    simp only [Bool.and_eq_true, Bool.not_eq_true', List.isEmpty_eq_false,
      List.all_eq_true, decide_eq_true_eq]
    exact ⟨⟨hlp, hL⟩, ⟨⟨⟨hd, hD⟩, hlen⟩, hT⟩⟩

/-- The keep test of the source loop agrees with the deterministic spec
check, on candidates already reduced to the kept character class. -/
theorem keepPred_eq_spec (b : List Char) (hb : ∀ c ∈ b, isEmailKeep c = true) :
    decide (5 < b.length ∧ validate_email (String.mk b) = true) = specEmailMatch b := by
  by_cases hshape : EmailShape b
  · rw [(specEmailMatch_iff b).mpr hshape]
    apply decide_eq_true
    refine ⟨?_, ?_⟩
    · have := emailShape_length b hshape
      omega
    · rw [validate_email]
      by_cases hdash : String.mk b = "-"
      · rw [if_pos hdash]
      · rw [if_neg hdash]
        have : emailFullMatch b = true := (emailFullMatch_iff b).mpr hshape
        simp [this]
  · have h1 : specEmailMatch b = false := by
      cases hq : specEmailMatch b with
      | false => rfl
      | true => exact absurd ((specEmailMatch_iff b).mp hq) hshape
    rw [h1]
    apply decide_eq_false
    rintro ⟨hlen, hval⟩
    apply hshape
    rw [validate_email] at hval
    by_cases hdash : String.mk b = "-"
    · have := string_mk_dash hdash
      rw [this] at hlen
      simp at hlen
    · rw [if_neg hdash] at hval
      rcases Bool.or_eq_true_iff.mp hval with hfull | hnl
      · exact (emailFullMatch_iff b).mp (by simpa using hfull)
      · exfalso
        have hlast : (String.mk b).toList.getLast? = some '\n' := by
          have := (Bool.and_eq_true _ _).mp hnl
          simpa using this.1
        have hmem : '\n' ∈ b := getLast?_mem_list hlast
        have := hb '\n' hmem
        simp [isEmailKeep, isAlphaA, isUpperAZ, isLowerAZ, isDigitA] at this

/-! ## Claim C1: the clean_email pipeline -/

theorem toList_eq_nil {s : String} (h : s.toList = []) : s = "" := by
  cases s with
  | mk data =>
    have h2 : data = [] := h
    subst h2
    rfl

theorem toList_eq_dash {s : String} (h : s.toList = ['-']) : s = "-" := by
  cases s with
  | mk data =>
    have h2 : data = ['-'] := h
    subst h2
    rfl

theorem if_match_dash (l : List (List Char)) :
    (if l = [] then "-" else String.mk (joinCS l)) =
      (match l with
       | [] => "-"
       | u => String.mk (joinCS u)) := by
  cases l with
  | nil => rfl
  | cons a t => simp

/-- Claim C1 (corrected), counterexample: the candidate contains an at sign
and the substring after its last at sign contains a dot, so the keep test of
the claim accepts it and the claim predicts the candidate survives; the code
rejects it (the strict pattern wants at least two letters after the final
dot) and returns the sentinel. -/
theorem c1_counterexample :
    clean_email "aa@bb.c" = "-" ∧ cleanEmailClaim "aa@bb.c" = "aa@bb.c" := by
  constructor
  · rfl
  · rfl

/-- Claim C1 (amended): for every input string, clean_email splits it on the
separator, strips every character outside [A-Za-z0-9@._-] from each
candidate, and keeps a candidate exactly when it fully matches the strict
email pattern (one or more characters of [A-Za-z0-9._%+-], an at sign, one or
more of [A-Za-z0-9.-], a dot, and at least two letters); surviving candidates
are lower-cased, exact duplicates removed preserving first-seen order, and
rejoined; the sentinel is returned on empty or sentinel input or when nothing
survives.  Stated as agreement with the specification-side cleanEmailSpec. -/
theorem c1_amended_clean_email (s : String) : clean_email s = cleanEmailSpec s := by
  by_cases h0 : s = "" ∨ s = "-"
  · have hl : s.toList = [] ∨ s.toList = ['-'] := by
      rcases h0 with rfl | rfl
      · exact Or.inl rfl
      · exact Or.inr rfl
    rw [clean_email, if_pos h0, cleanEmailSpec, if_pos hl]
  · have hl : ¬(s.toList = [] ∨ s.toList = ['-']) := by
      intro h
      apply h0
      rcases h with h | h
      · exact Or.inl (toList_eq_nil h)
      · exact Or.inr (toList_eq_dash h)
    rw [clean_email, if_neg h0, cleanEmailSpec, if_neg hl]
    have hfun : emailKeepFun = fun a : List Char =>
        if 5 < (pyStrip (a.filter isEmailKeep)).length ∧
            validate_email (String.mk (pyStrip (a.filter isEmailKeep))) = true then
          some ((pyStrip (a.filter isEmailKeep)).map pyLower)
        else none := rfl
    have h1 : (splitCS s.toList).filterMap
        (fun a : List Char =>
          if 5 < (pyStrip (a.filter isEmailKeep)).length ∧
              validate_email (String.mk (pyStrip (a.filter isEmailKeep))) = true then
            some ((pyStrip (a.filter isEmailKeep)).map pyLower)
          else none) =
        (((splitCS s.toList).map (fun a => pyStrip (a.filter isEmailKeep))).filter
          (fun b => decide (5 < b.length ∧ validate_email (String.mk b) = true))).map
            (fun b => b.map pyLower) :=
      filterMap_if (fun a => pyStrip (a.filter isEmailKeep))
        (fun b => 5 < b.length ∧ validate_email (String.mk b) = true)
        (fun b => b.map pyLower) (splitCS s.toList)
    have hmap : (splitCS s.toList).map (fun a => pyStrip (a.filter isEmailKeep)) =
        (splitCS s.toList).map (fun a => a.filter isEmailKeep) := by
      apply List.map_congr_left
      intro a _
      apply pyStrip_noop
      intro c hc
      exact isEmailKeep_not_ws c (List.mem_filter.mp hc).2
    have hfil : ((splitCS s.toList).map (fun a => a.filter isEmailKeep)).filter
          (fun b => decide (5 < b.length ∧ validate_email (String.mk b) = true)) =
        ((splitCS s.toList).map (fun a => a.filter isEmailKeep)).filter
          (fun b => specEmailMatch b) := by
      apply List.filter_congr
      intro b hb
      rcases List.mem_map.mp hb with ⟨a, _, rfl⟩
      apply keepPred_eq_spec
      intro c hc
      exact (List.mem_filter.mp hc).2
    have hkey : cleanEmailCore s.toList =
        dedupFirst ((((splitCS s.toList).map (fun e => e.filter isEmailKeep)).filter
          (fun e => specEmailMatch e)).map (fun e => e.map pyLower)) := by
      unfold cleanEmailCore
      rw [hfun, h1, hmap, hfil]
    show (if cleanEmailCore s.toList = [] then "-"
        else String.mk (joinCS (cleanEmailCore s.toList))) =
      (match dedupFirst ((((splitCS s.toList).map (fun e => e.filter isEmailKeep)).filter
          (fun e => specEmailMatch e)).map (fun e => e.map pyLower)) with
       | [] => "-"
       | u => String.mk (joinCS u))
    rw [hkey, if_match_dash]

/-! ## Claim C7: the clean_phone pipeline -/

/-- Claim C7 (corrected), counterexample: the source keeps every whitespace
character (the class of its re.sub is backslash-s), so an interior tab
survives cleaning; the claim says characters outside digits, plus, hyphen and
space are stripped, which would delete the tab. -/
theorem c7_counterexample :
    clean_phone "12\t34567" = "12\t34567" ∧ cleanPhoneClaim "12\t34567" = "1234567" := by
  constructor
  · rfl
  · rfl

/-- Claim C7 (amended): for every input string, clean_phone keeps a candidate
(after stripping characters outside digits, plus, hyphen and whitespace, and
trimming surrounding whitespace) exactly when its digit-only length is
between 7 and 15 inclusive, deduplicates preserving first occurrences, and
rejoins; it returns the sentinel exactly when the input is empty or the
sentinel or every candidate fails this digit count.  Stated as agreement with
the specification-side cleanPhoneSpec. -/
theorem c7_amended_clean_phone (s : String) : clean_phone s = cleanPhoneSpec s := by
  by_cases h0 : s = "" ∨ s = "-"
  · have hl : s.toList = [] ∨ s.toList = ['-'] := by
      rcases h0 with rfl | rfl
      · exact Or.inl rfl
      · exact Or.inr rfl
    rw [clean_phone, if_pos h0, cleanPhoneSpec, if_pos hl]
  · have hl : ¬(s.toList = [] ∨ s.toList = ['-']) := by
      intro h
      apply h0
      rcases h with h | h
      · exact Or.inl (toList_eq_nil h)
      · exact Or.inr (toList_eq_dash h)
    rw [clean_phone, if_neg h0, cleanPhoneSpec, if_neg hl]
    have hfun : phoneKeepFun = fun p : List Char =>
        if 7 ≤ ((pyStrip (p.filter isPhoneKeep)).filter isDigitA).length ∧
            ((pyStrip (p.filter isPhoneKeep)).filter isDigitA).length ≤ 15 then
          some (pyStrip (p.filter isPhoneKeep))
        else none := rfl
    have h1 : (splitCS s.toList).filterMap
        (fun p : List Char =>
          if 7 ≤ ((pyStrip (p.filter isPhoneKeep)).filter isDigitA).length ∧
              ((pyStrip (p.filter isPhoneKeep)).filter isDigitA).length ≤ 15 then
            some (pyStrip (p.filter isPhoneKeep))
          else none) =
        (((splitCS s.toList).map (fun p => pyStrip (p.filter isPhoneKeep))).filter
          (fun b => decide (7 ≤ (b.filter isDigitA).length ∧
            (b.filter isDigitA).length ≤ 15))).map (fun b => b) :=
      filterMap_if (fun p => pyStrip (p.filter isPhoneKeep))
        (fun b => 7 ≤ (b.filter isDigitA).length ∧ (b.filter isDigitA).length ≤ 15)
        (fun b => b) (splitCS s.toList)
    have h2 : (((splitCS s.toList).map (fun p => pyStrip (p.filter isPhoneKeep))).filter
          (fun b => decide (7 ≤ (b.filter isDigitA).length ∧
            (b.filter isDigitA).length ≤ 15))).map (fun b => b) =
        ((splitCS s.toList).map (fun p => pyStrip (p.filter isPhoneKeep))).filter
          (fun b => decide (7 ≤ (b.filter isDigitA).length ∧
            (b.filter isDigitA).length ≤ 15)) := List.map_id' _
    have hkey : cleanPhoneCore s.toList =
        dedupFirst (((splitCS s.toList).map
            (fun p => pyStrip (p.filter
              (fun c => isDigitA c || c = '+' || c = '-' || isPyWs c)))).filter
          (fun p => decide (7 ≤ (p.filter isDigitA).length ∧
            (p.filter isDigitA).length ≤ 15))) := by
      unfold cleanPhoneCore
      rw [hfun, h1, h2]
      rfl
    show (if cleanPhoneCore s.toList = [] then "-"
        else String.mk (joinCS (cleanPhoneCore s.toList))) =
      (match dedupFirst (((splitCS s.toList).map
            (fun p => pyStrip (p.filter
              (fun c => isDigitA c || c = '+' || c = '-' || isPyWs c)))).filter
          (fun p => decide (7 ≤ (p.filter isDigitA).length ∧
            (p.filter isDigitA).length ≤ 15))) with
       | [] => "-"
       | u => String.mk (joinCS u))
    rw [hkey, if_match_dash]

/-! ## Claim C2: the two store loads -/

/-- Claim C2 (corrected), counterexample: load_state has no exception
handler, so a state file whose parse raises passes the exception to the
caller instead of returning the safe default. -/
theorem c2_counterexample :
    load_state (some (Except.error "Expecting value")) =
      Except.error "Expecting value" := rfl

/-- Claim C2 (amended): the Record Store load returns the empty list whenever
the records file is absent, fails to parse, or parses to anything but a list;
the Run State Store load returns the safe default only when the state file is
absent, while a failing parse propagates its exception and a parsed value of
any shape is returned unchanged. -/
theorem c2_amended_load_defaults :
    load_state none = Except.ok defaultStateJson
    ∧ (∀ e, load_state (some (Except.error e)) = Except.error e)
    ∧ (∀ j, load_state (some (Except.ok j)) = Except.ok j)
    ∧ load_existing_data none = []
    ∧ (∀ e, load_existing_data (some (Except.error e)) = [])
    ∧ (∀ xs, load_existing_data (some (Except.ok (Json.arr xs))) = xs)
    ∧ load_existing_data (some (Except.ok Json.null)) = []
    ∧ (∀ b, load_existing_data (some (Except.ok (Json.bool b))) = [])
    ∧ (∀ n, load_existing_data (some (Except.ok (Json.num n))) = [])
    ∧ (∀ s2, load_existing_data (some (Except.ok (Json.str s2))) = [])
    ∧ (∀ kvs, load_existing_data (some (Except.ok (Json.obj kvs))) = []) :=
  ⟨rfl, fun _ => rfl, fun _ => rfl, rfl, fun _ => rfl, fun _ => rfl, rfl,
    fun _ => rfl, fun _ => rfl, fun _ => rfl, fun _ => rfl⟩

/-! ## Claim C8: round trip of the Run State -/

/-- Claim C8: saving a Run State and loading it back yields the identical
serialized dictionary, and reading its two fields as the orchestrator does
recovers an identical start_index and an identical scraped_urls sequence. -/
theorem c8_state_roundtrip (st : RunState) :
    load_state (some (save_state st)) = Except.ok (stateToJson st)
    ∧ stateOfJson (stateToJson st) = some st := by
  refine ⟨rfl, ?_⟩
  have hdec : ∀ urls : List String, decodeUrls (urls.map Json.str) = some urls := by
    intro urls
    induction urls with
    | nil => rfl
    | cons u rest ih => simp [decodeUrls, ih]
  show (decodeUrls (st.scraped_urls.map Json.str)).map
      (fun urls => RunState.mk st.start_index urls) = some st
  rw [hdec]
  rfl

/-! ## Claim C9: search client validation -/

/-- Claim C9: the search page fetch raises a ValueError before any network
request exactly when the stripped query has fewer than 3 characters or the
offset lies outside the closed interval from 1 to 100 (the empty-query test
of the source is absorbed by the stripped length test). -/
theorem c9_fetch_validation_iff (query : String) (start : Int) :
    (∃ e, fetch_cse_validate query start = Except.error e) ↔
      ((pyStrip query.toList).length < 3 ∨ start < 1 ∨ 100 < start) := by
  constructor
  · rintro ⟨e, he⟩
    rw [fetch_cse_validate] at he
    by_cases h1 : query = "" ∨ (pyStrip query.toList).length < 3
    · left
      rcases h1 with h1 | h1
      · subst h1
        decide
      · exact h1
    · rw [if_neg h1] at he
      by_cases h2 : start < 1 ∨ start > 100
      · right
        exact h2
      · rw [if_neg h2] at he
        exact absurd he (by simp)
  · intro h
    rw [fetch_cse_validate]
    by_cases h1 : query = "" ∨ (pyStrip query.toList).length < 3
    · rw [if_pos h1]
      exact ⟨_, rfl⟩
    · rw [if_neg h1]
      have h2 : start < 1 ∨ start > 100 := by
        rcases h with h | h | h
        · exact absurd (Or.inr h) h1
        · exact Or.inl h
        · exact Or.inr h
      rw [if_pos h2]
      exact ⟨_, rfl⟩

/-- Witness for claim C9 at a concrete short query. -/
theorem c9_witness : ∃ e, fetch_cse_validate "ab" 5 = Except.error e :=
  (c9_fetch_validation_iff "ab" 5).mpr (Or.inl (by decide))

/-! ## Claim C3: the fallback resolver -/

theorem matchEmailAt_at (cs m r : List Char) (h : matchEmailAt cs = some (m, r)) :
    '@' ∈ m := by
  unfold matchEmailAt at h
  split at h
  · exact absurd h (by simp)
  · split at h
    · split at h
      · rename_i dm r2 heq
        have h2 := Option.some.inj h
        have hm : m = cs.takeWhile isL ++ '@' :: dm := (congrArg Prod.fst h2).symm
        rw [hm]
        exact List.mem_append_right _ (List.mem_cons_self '@' dm)
      · exact absurd h (by simp)
    · exact absurd h (by simp)

theorem findAllEmails_at (fuel : Nat) (cs : List Char) (m : List Char)
    (h : m ∈ findAllEmailsAux fuel cs) : '@' ∈ m := by
  induction fuel generalizing cs with
  | zero => simp [findAllEmailsAux] at h
  | succ f ih =>
    cases cs with
    | nil => simp [findAllEmailsAux] at h
    | cons c rest =>
      rw [findAllEmailsAux] at h
      cases hm : matchEmailAt (c :: rest) with
      | some mr =>
        obtain ⟨m2, r2⟩ := mr
        simp only [hm] at h
        rcases List.mem_cons.mp h with rfl | h2
        · exact matchEmailAt_at _ _ _ hm
        · exact ih r2 h2
      | none =>
        simp only [hm] at h
        exact ih rest h

theorem extract_emails_no_dash (t : String) (hne : extract_emails t ≠ ["-"]) :
    ∀ e ∈ extract_emails t, e ≠ "-" := by
  intro e he
  have hdef : extract_emails t =
      (if (findAllEmailsAux t.toList.length t.toList).isEmpty then ["-"]
       else (findAllEmailsAux t.toList.length t.toList).map String.mk) := rfl
  by_cases hm : (findAllEmailsAux t.toList.length t.toList).isEmpty
  · rw [hdef, if_pos hm] at hne
    exact absurd rfl hne
  · rw [hdef, if_neg hm] at he
    rcases List.mem_map.mp he with ⟨m, hmem, rfl⟩
    have hat : '@' ∈ m := findAllEmails_at _ _ m hmem
    intro hcon
    have hm2 : m = ['-'] := string_mk_dash hcon
    rw [hm2] at hat
    simp at hat

theorem geminiAssign_eq_zip (rs : List Entity) (es : List String)
    (h : ∀ e ∈ es, e ≠ "-") : geminiAssign rs es = geminiZipSpec rs es := by
  induction rs generalizing es with
  | nil => cases es <;> rfl
  | cons r rs2 ih =>
    cases es with
    | nil =>
      rw [geminiAssign, geminiZipSpec]
      rw [ih [] (by simp)]
      rfl
    | cons e es2 =>
      have he : e ≠ "-" := h e (List.mem_cons_self e es2)
      rw [geminiAssign, geminiZipSpec, if_pos he,
        ih es2 (fun e2 h2 => h e2 (List.mem_cons_of_mem e h2))]

/-- Claim C3 (corrected), counterexample: four entities are submitted and the
service response contains an email, yet only three results come back (the
success path builds results only for the first three submitted entities), so
the resolver does not return one result per submitted entity. -/
theorem c3_counterexample :
    (gemini_fallback_bulk true
      [Entity.mk "A" "https://a.sg" "-" "-", Entity.mk "B" "https://b.sg" "-" "-",
       Entity.mk "C" "https://c.sg" "-" "-", Entity.mk "D" "https://d.sg" "-" "-"]
      "a@bb.cc").length = 3 ∧
    ([Entity.mk "A" "https://a.sg" "-" "-", Entity.mk "B" "https://b.sg" "-" "-",
      Entity.mk "C" "https://c.sg" "-" "-",
      Entity.mk "D" "https://d.sg" "-" "-"] : List Entity).length = 4 := by
  constructor
  · rfl
  · rfl

/-- Claim C3 (amended): with a configured key and a successful service
response, the fallback resolver returns the sentinel-marked copy of every
submitted entity when no email is extracted from the response; when emails
are extracted it returns one result per entity of the first-3 batch, in
submission order, assigning the extracted emails in order and marking
entities beyond their count with the sentinel. -/
theorem c3_amended_fallback_zip (rs : List Entity) (t : String) :
    (extract_emails t = ["-"] → gemini_fallback_bulk true rs t = rs.map markMissing)
    ∧ (extract_emails t ≠ ["-"] →
        gemini_fallback_bulk true rs t = geminiZipSpec (rs.take 3) (extract_emails t)) := by
  constructor
  · intro h
    rw [gemini_fallback_bulk]
    by_cases hrs : rs.isEmpty
    · rw [if_pos (by simp [hrs])]
    · rw [if_neg (by simp [hrs]), if_neg (fun hc => hc h)]
  · intro h
    rw [gemini_fallback_bulk]
    by_cases hrs : rs.isEmpty
    · have hnil : rs = [] := by simpa [List.isEmpty_iff] using hrs
      subst hnil
      rw [if_pos (by simp)]
      rfl
    · rw [if_neg (by simp [hrs]), if_pos h]
      exact geminiAssign_eq_zip _ _ (extract_emails_no_dash t h)

/-- Witness for claim C3 at a concrete response carrying one email. -/
theorem c3_witness :
    gemini_fallback_bulk true
      [Entity.mk "A" "https://a.sg" "-" "-", Entity.mk "B" "https://b.sg" "-" "-"]
      "write to a@bb.cc" =
      geminiZipSpec
        ([Entity.mk "A" "https://a.sg" "-" "-",
          Entity.mk "B" "https://b.sg" "-" "-"].take 3)
        (extract_emails "write to a@bb.cc") :=
  (c3_amended_fallback_zip _ _).2 (by decide)

/-! ## Claim C5: a fully-scraped page -/

theorem processItem_skip (fetch : String → String) (r : List Entity) (sc : List String)
    (n : Nat) (item : Item) (h : item.link ∈ sc) :
    processItem fetch (r, sc, n) item = (r, sc, n) := by
  rw [processItem]
  by_cases hv : validate_url item.link = false
  · rw [if_pos hv]
  · rw [if_neg hv, if_pos h]

theorem foldl_skip (fetch : String → String) (results : List Item) (r : List Entity)
    (sc : List String) (n : Nat) (h : ∀ it ∈ results, it.link ∈ sc) :
    results.foldl (processItem fetch) (r, sc, n) = (r, sc, n) := by
  induction results with
  | nil => rfl
  | cons it rest ih =>
    rw [List.foldl_cons,
      processItem_skip fetch r sc n it (h it (List.mem_cons_self it rest))]
    exact ih (fun it2 h2 => h it2 (List.mem_cons_of_mem it h2))

/-- Claim C5: on a non-empty result page in which every link is already a
member of scraped_urls, one orchestrator run leaves the record list
unchanged, produces zero new entities, leaves scraped_urls unchanged, and
still advances start_index by exactly the page size NUM_RESULTS. -/
theorem c5_skip_page_advances (fetch : String → String) (restaurants : List Entity)
    (st : RunState) (results : List Item) (h1 : results ≠ [])
    (h2 : ∀ it ∈ results, it.link ∈ st.scraped_urls) :
    main_run fetch restaurants st results =
      (restaurants, RunState.mk (st.start_index + NUM_RESULTS) st.scraped_urls, 0) := by
  rw [main_run, if_neg h1,
    foldl_skip fetch results restaurants st.scraped_urls 0 h2]

/-- Witness for claim C5 at a concrete one-item page already scraped. -/
theorem c5_witness :
    main_run (fun _ => "") [] (RunState.mk 1 ["https://a.com"])
      [Item.mk "T" "" "https://a.com"] =
      ([], RunState.mk (1 + NUM_RESULTS) ["https://a.com"], 0) :=
  c5_skip_page_advances (fun _ => "") [] (RunState.mk 1 ["https://a.com"])
    [Item.mk "T" "" "https://a.com"] (by simp)
    (by
      intro it hit
      rw [List.mem_singleton] at hit
      subst hit
      exact List.mem_singleton.mpr rfl)

/-! ## Claim C4: clean_name -/

theorem noNL_cons (c : Char) (rest : List Char) (h : noNL (c :: rest) = true) :
    c ≠ '\n' ∧ noNL rest = true := by
  simp only [noNL, List.contains_cons, Bool.not_eq_true', Bool.or_eq_false_iff,
    beq_eq_false_iff_ne, ne_eq] at h
  refine ⟨fun hc => h.1 hc.symm, ?_⟩
  simp only [noNL, Bool.not_eq_true', h.2]

theorem noNL_of_not_mem (cs : List Char) (h : '\n' ∉ cs) : noNL cs = true := by
  simp only [noNL, Bool.not_eq_true']
  induction cs with
  | nil => rfl
  | cons c rest ih =>
    simp only [List.contains_cons, Bool.or_eq_false_iff, beq_eq_false_iff_ne, ne_eq]
    refine ⟨fun hc => h (hc ▸ List.mem_cons_self c rest), ?_⟩
    exact ih (fun h2 => h (List.mem_cons_of_mem c h2))

theorem noNL_tailOk (t : List Char) (h : noNL t = true) : tailOk t = true := by
  induction t with
  | nil => rfl
  | cons c rest ih =>
    obtain ⟨hc, hrest⟩ := noNL_cons c rest h
    rw [tailOk]
    by_cases hr : rest = []
    · rw [if_pos hr]
    · rw [if_neg hr]
      simp [hc, ih hrest]

theorem noNL_not_mem (cs : List Char) (h : noNL cs = true) : '\n' ∉ cs := by
  induction cs with
  | nil => simp
  | cons c rest ih =>
    obtain ⟨hc, hrest⟩ := noNL_cons c rest h
    intro hm
    rcases List.mem_cons.mp hm with h2 | h2
    · exact hc h2.symm
    · exact ih hrest h2

theorem subTrunc_noNL (cs : List Char) (h : noNL cs = true) :
    subTrunc cs = cs.take (findTruncIdx cs) := by
  induction cs with
  | nil => rfl
  | cons c rest ih =>
    obtain ⟨hcnl, hrest⟩ := noNL_cons c rest h
    rw [subTrunc]
    cases hd : dropLeadWs (c :: rest) with
    | nil =>
      have hst : startsTrunc (c :: rest) = false := by
        rw [startsTrunc]
        simp only [hd]
      rw [findTruncIdx, hst]
      simp only [if_false, Bool.false_eq_true]
      rw [Nat.add_comm, List.take_succ_cons, ih hrest]
    | cons d t =>
      have htmem : ∀ x ∈ t, x ∈ c :: rest := by
        intro x hx
        exact dropLeadWs_sub (c :: rest) x (hd ▸ List.mem_cons_of_mem d hx)
      have htnl : noNL t = true := by
        apply noNL_of_not_mem
        intro hmem
        have h2 := htmem '\n' hmem
        rcases List.mem_cons.mp h2 with h3 | h3
        · exact hcnl h3.symm
        · exact noNL_not_mem rest hrest h3
      show (if (d = '|' ∨ d = '-') ∧ tailOk t = true then
          (if noNL t = true then [] else ['\n'])
        else c :: subTrunc rest) = List.take (findTruncIdx (c :: rest)) (c :: rest)
      by_cases hdel : (d = '|' ∨ d = '-')
      · rw [if_pos ⟨hdel, noNL_tailOk t htnl⟩, if_pos htnl]
        have hst : startsTrunc (c :: rest) = true := by
          rw [startsTrunc]
          simp only [hd]
          rcases hdel with h3 | h3 <;> simp [h3]
        rw [findTruncIdx, hst]
        simp
      · have hnot : ¬((d = '|' ∨ d = '-') ∧ tailOk t = true) := fun hc2 => hdel hc2.1
        rw [if_neg hnot]
        have hst : startsTrunc (c :: rest) = false := by
          rw [startsTrunc]
          simp only [hd]
          push_neg at hdel
          simp [hdel.1, hdel.2]
        rw [findTruncIdx, hst]
        simp only [if_false, Bool.false_eq_true]
        rw [Nat.add_comm, List.take_succ_cons, ih hrest]

/-- Claim C4 (corrected), counterexample: with an empty website the source
keeps a generic name unchanged instead of replacing it with a domain-derived
name, and a title whose first delimiter is followed by a newline and further
text escapes the truncation pattern, so that title is not truncated at its
first hyphen. -/
theorem c4_counterexample :
    clean_name "Contact" "" = "Contact" ∧ clean_name "a - b\nc" "" = "a - b c" := by
  constructor
  · rfl
  · rfl

/-- Claim C4 (amended): for every title and website, (a) on a newline-free
title the truncation removes exactly the suffix starting at the first
position where optional whitespace is followed by a vertical bar or a hyphen
(titles in which text containing a non-final newline follows the delimiter
escape the pattern, hence the newline-free hypothesis); (b) whenever the
cleaned lowercased name is one of the generic placeholders and the website is
non-empty, the result is the capitalized domain label followed by the word
Restaurant; (c) the specification example holds. -/
theorem c4_amended_clean_name (title website : String) :
    (noNL title.toList = true →
      subTrunc title.toList = title.toList.take (findTruncIdx title.toList))
    ∧ (String.mk ((nameCore title).map pyLower) ∈ generic_names → website ≠ "" →
        clean_name title website = extract_domain_name website ++ " Restaurant")
    ∧ clean_name "Contact Us | Best Bites" "https://bestbites.sg" =
        "Bestbites Restaurant" := by
  refine ⟨subTrunc_noNL title.toList, ?_, ?_⟩
  · intro hg hw
    rw [clean_name]
    show (if String.mk ((nameCore title).map pyLower) ∈ generic_names ∧ website ≠ "" then
        extract_domain_name website ++ " Restaurant"
      else if nameCore title = [] then "Unknown Restaurant"
      else String.mk (nameCore title)) = extract_domain_name website ++ " Restaurant"
    rw [if_pos ⟨hg, hw⟩]
  · rfl

/-- Witness for claim C4 at a concrete generic title and non-empty website. -/
theorem c4_witness :
    clean_name "Contact Us" "https://x.sg" =
      extract_domain_name "https://x.sg" ++ " Restaurant" :=
  (c4_amended_clean_name "Contact Us" "https://x.sg").2.1 (by decide) (by decide)
